import Mathlib

/-!
Verification development for the `Path` filesystem-path library and its
platform detector.

The source works on JavaScript strings; the embedding mirrors it at the
character-list level (`List Char` is the character sequence of a JS string)
with thin `String` wrappers at the boundary, and models the OS boundary
(`node:fs`, `node:path`) by the POSIX-flavoured contract the library relies
on.  `Path` values are plain normalized strings, exactly as in the source
(`readonly string`).
-/

set_option autoImplicit false

/-- JS `s.split('/')` (split at every separator, keeping empty segments;
splitting the empty string gives `[""]`). -/
def splitc : List Char → List (List Char)
  | [] => [[]]
  | c :: cs =>
    if c = '/' then [] :: splitc cs
    else
      match splitc cs with
      | s :: rest => (c :: s) :: rest
      | [] => [[c]]

/-- JS `segments.join('/')`. -/
def joinc : List (List Char) → List Char
  | [] => []
  | [s] => s
  | s :: rest => s ++ '/' :: joinc rest

/-- One step of node's `normalizeString` with `allowAboveRoot = false` (the
absolute-path case): empty and `.` segments are dropped, `..` pops the last
accumulated segment (or is dropped at the root), anything else is kept. -/
def normStep (acc : List (List Char)) (seg : List Char) : List (List Char) :=
  if seg = [] ∨ seg = ['.'] then acc
  else if seg = ['.', '.'] then acc.dropLast
  else acc ++ [seg]

/-- Segment resolution of node's `path.posix.normalize` for absolute inputs. -/
def normSegs (segs : List (List Char)) : List (List Char) :=
  segs.foldl normStep []

/-- Model of node `path.posix.normalize`, restricted to absolute inputs (the
only way the library calls it: the constructor rejects non-absolute strings
first).  Node splits at `/`, resolves `.`/`..`/empty segments, rejoins with
a leading `/`, preserves a trailing separator of the input when the result
is not the bare root, and returns `/` when no segments remain. -/
def normc (l : List Char) : List Char :=
  let segs := normSegs (splitc l)
  if segs = [] then ['/']
  else '/' :: joinc segs ++ (if l.getLast? = some '/' then ['/'] else [])

/-- Model of node `path.posix.dirname`: skip trailing separators, skip the
last segment, and cut there; positions below index 1 do not count as a cut
point, giving `/` for root-level inputs (or `.` for relative ones, which the
library never produces). -/
def dirnamec (l : List Char) : List Char :=
  if l = [] then ['.']
  else
    let hasRoot := l.head? = some '/'
    let r2 := (l.reverse.dropWhile (fun c => c = '/')).dropWhile (fun c => c ≠ '/')
    if r2.length ≤ 1 then (if hasRoot then ['/'] else ['.'])
    else if hasRoot ∧ r2.length = 2 then ['/', '/']
    else l.take (r2.length - 1)

/-- The construction failure of the `Path` constructor. -/
inductive PathError where
  | invalidPath
deriving DecidableEq

/-- String wrapper for `normc`. -/
def normalizeStr (s : String) : String := ⟨normc s.data⟩

/-- The `Path` constructor: throws `invalid absolute path` when the input is
empty (JS falsy) or its first character is not `/`; otherwise stores the
normalized string. -/
def Path.construct (input : String) : Except PathError String :=
  if input = "" ∨ input.data.head? ≠ some '/' then .error .invalidPath
  else .ok (normalizeStr input)

/-- `Path.abs`: the constructor wrapped in try/catch, returning absence
instead of failing. -/
def Path.abs (input : String) : Option String :=
  (Path.construct input).toOption

/-- `Path.parent`: `new Path(node_path.dirname(this.string))`. -/
def Path.parent (p : String) : String := ⟨dirnamec p.data⟩

/-- Core of `Path.join` on character lists: filter falsy (empty) components,
join with `/`; a joined string starting with `/` is taken as is (normalized),
a non-empty joined string is appended to the receiver and normalized, and an
empty one returns the receiver unchanged. -/
def joinCore (p : List Char) (components : List (List Char)) : List Char :=
  let joined := joinc (components.filter (fun s => s ≠ []))
  if joined.head? = some '/' then normc joined
  else if joined ≠ [] then normc (p ++ '/' :: joined)
  else p

/-- `Path.join(...components)`. -/
def Path.join (p : String) (components : List String) : String :=
  ⟨joinCore p.data (components.map String.data)⟩

/-- `this.string.split('/').filter(x => x)`, as used by `Path.relative`. -/
def compsc (l : List Char) : List (List Char) :=
  (splitc l).filter (fun s => s ≠ [])

/-- The common-prefix stripping loop of `Path.relative`
(`while (newPathComps[0] == newBaseComps[0]) shift both`).  In JS the loop
also runs when both arrays are exhausted (`undefined == undefined`) and then
never terminates; that situation is unreachable from `relative` on distinct
normalized inputs, and the model returns both empty remainders there. -/
def dropCommon : List (List Char) → List (List Char) → List (List Char) × List (List Char)
  | a :: as, b :: bs => if a = b then dropCommon as bs else (a :: as, b :: bs)
  | as, bs => (as, bs)

/-- Core of `Path.relative({to: base})`: with the root as implicit leading
component, either strip the base prefix when the target string starts with
the base string, or strip the common component prefix, emit one `..` per
remaining base component and append the remaining target components. -/
def relativec (path base : List Char) : List Char :=
  let pathComps := ['/'] :: compsc path
  let baseComps := ['/'] :: compsc base
  if base.isPrefixOf path then
    joinc (pathComps.drop baseComps.length)
  else
    let r := dropCommon pathComps baseComps
    joinc (List.replicate r.2.length ['.', '.'] ++ r.1)

/-- `Path.relative({to: base})`. -/
def Path.relative (p base : String) : String :=
  ⟨relativec p.data base.data⟩

/-- `Path.eq`: exact string comparison. -/
def Path.eq (a b : String) : Bool := a == b

/-- `Path.neq`: exact string inequality. -/
def Path.neq (a b : String) : Bool := a != b

/-- A well-formed path component: nonempty, contains no separator, and is
neither `.` nor `..` (the segments a normalized absolute path consists of). -/
def goodSeg (s : List Char) : Prop :=
  s ≠ [] ∧ '/' ∉ s ∧ s ≠ ['.'] ∧ s ≠ ['.', '.']

instance (s : List Char) : Decidable (goodSeg s) := by
  unfold goodSeg; infer_instance

/-- The canonical absolute path with the given components: `/` for no
components, otherwise `/` followed by the components joined with `/`. -/
def mkAbs (segs : List (List Char)) : List Char :=
  if segs = [] then ['/'] else '/' :: joinc segs

/-- Whether the character list contains two adjacent separators. -/
def hasDupSep : List Char → Bool
  | [] => false
  | [_] => false
  | a :: b :: rest => (a = '/' && b = '/') || hasDupSep (b :: rest)

/-- The representation invariant claimed for `Path` values: starts with the
root separator, no duplicate separators, no `.` segments, and no trailing
separator except for the root itself. -/
def pathInvariant (s : String) : Prop :=
  s.data.head? = some '/' ∧ hasDupSep s.data = false ∧
    ['.'] ∉ splitc s.data ∧ (s.data.getLast? = some '/' → s.data = ['/'])

instance (s : String) : Decidable (pathInvariant s) := by
  unfold pathInvariant; infer_instance

/-! ### Model of the mutating filesystem operations (`mv`, `rm`)

The filesystem is a finite association list from normalized absolute path
strings to entries; a directory's descendants are the entries whose path
extends it with a separator.  The `node:fs` calls the library makes are
modelled by their POSIX contracts. -/

/-- A filesystem entry for the mutating operations. -/
inductive FNode where
  | file (content : String)
  | dir
deriving DecidableEq

/-- An error thrown by a modelled `node:fs` call: its `code` property, and
whether the thrown object is a `TypeError` (OS failures are plain `Error`
objects, so this is `false` for all of them). -/
structure JsError where
  code : String
  isTypeError : Bool
deriving DecidableEq

/-- The modelled filesystem. -/
abbrev FS : Type := List (String × FNode)

/-- Look up the entry at a path. -/
def lookupFS : FS → String → Option FNode
  | [], _ => none
  | (q, n) :: rest, p => if q = p then some n else lookupFS rest p

/-- `this.exists()` (`statSync` succeeding); the model has no symlinks, so
this is presence of an entry. -/
def statExists (fs : FS) (p : String) : Bool :=
  (lookupFS fs p).isSome

/-- Remove the entry at exactly this path. -/
def eraseFS (fs : FS) (p : String) : FS :=
  fs.filter (fun e => e.1 ≠ p)

/-- Remove the entry at this path together with everything below it. -/
def eraseTree (fs : FS) (p : String) : FS :=
  fs.filter (fun e => e.1 ≠ p ∧ ¬((p ++ "/").data.isPrefixOf e.1.data))

/-- Model of `node_fs.unlinkSync`: removes a file, fails on a directory or a
missing path. -/
def unlinkSync (fs : FS) (p : String) : Except JsError FS :=
  match lookupFS fs p with
  | none => .error ⟨"ENOENT", false⟩
  | some .dir => .error ⟨"EISDIR", false⟩
  | some (.file _) => .ok (eraseFS fs p)

/-- Whether a directory path has at least one entry below it. -/
def dirNonEmpty (fs : FS) (p : String) : Bool :=
  fs.any (fun e => (p ++ "/").data.isPrefixOf e.1.data)

/-- Moving a directory re-prefixes every path at or below the source. -/
def moveTree (fs : FS) (src dst : String) : FS :=
  (eraseFS fs dst).map (fun e =>
    if e.1 = src then (dst, e.2)
    else if (src ++ "/").data.isPrefixOf e.1.data then
      (dst ++ e.1.drop src.length, e.2)
    else e)

/-- Model of `node_fs.renameSync` (POSIX `rename`): silently replaces an
existing file destination; fails when the source is missing, when a file is
renamed onto a directory, or a directory onto a file or non-empty
directory. -/
def renameSync (fs : FS) (src dst : String) : Except JsError FS :=
  match lookupFS fs src with
  | none => .error ⟨"ENOENT", false⟩
  | some (.file c) =>
    match lookupFS fs dst with
    | some .dir => .error ⟨"EISDIR", false⟩
    | _ => .ok ((dst, .file c) :: eraseFS (eraseFS fs src) dst)
  | some .dir =>
    match lookupFS fs dst with
    | some (.file _) => .error ⟨"ENOTDIR", false⟩
    | some .dir =>
      if dirNonEmpty fs dst then .error ⟨"ENOTEMPTY", false⟩
      else .ok (moveTree fs src dst)
    | none => .ok (moveTree fs src dst)

/-- `Path.mv({to, force})`: `if (opts.to.exists() && force)` unlink the
destination first; then `renameSync(this, to)`; return `to`.  Note that when
`force` is not set there is no destination check at all before the rename. -/
def Path.mv (fs : FS) (src dst : String) (force : Bool) : Except JsError (String × FS) :=
  if statExists fs dst && force then
    match unlinkSync fs dst with
    | .error e => .error e
    | .ok fs1 =>
      match renameSync fs1 src dst with
      | .error e => .error e
      | .ok fs2 => .ok (dst, fs2)
  else
    match renameSync fs src dst with
    | .error e => .error e
    | .ok fs2 => .ok (dst, fs2)

/-- Model of `node_fs.rmSync(path, {recursive})`: files are removed either
way, directories only with `recursive` (otherwise the `EISDIR`-style error),
and a missing path raises `ENOENT`. -/
def rmSync (fs : FS) (p : String) (recursive : Bool) : Except JsError FS :=
  match lookupFS fs p with
  | none => .error ⟨"ENOENT", false⟩
  | some (.file _) => .ok (eraseFS fs p)
  | some .dir =>
    if recursive then .ok (eraseTree fs p) else .error ⟨"EISDIR", false⟩

/-- `Path.rm({recursive})`: `if (this.exists()) rmSync(this, {recursive})`. -/
def Path.rm (fs : FS) (p : String) (recursive : Bool) : Except JsError FS :=
  if statExists fs p then rmSync fs p recursive else .ok fs

/-- Running `rm` twice in succession: the second call acts on the state left
by the first (unchanged when the first raised); returns the second call's
outcome. -/
def rmTwiceSecond (fs : FS) (p : String) (recursive : Bool) : Except JsError FS :=
  match Path.rm fs p recursive with
  | .ok fs1 => Path.rm fs1 p recursive
  | .error _ => Path.rm fs p recursive

/-! ### Model of `readlink` -/

/-- The unresolved (`lstat`) view of the final path component. -/
inductive LNode where
  | file
  | dir
  | symlink (target : String)
deriving DecidableEq

/-- Model of `node_fs.readlinkSync` at a path whose unresolved entry is
`entry`: returns a symlink's target, raises `ENOENT` when there is no entry
and `EINVAL` when the entry is not a symlink; both as plain `Error`s. -/
def readlinkSync (entry : Option LNode) : Except JsError String :=
  match entry with
  | none => .error ⟨"ENOENT", false⟩
  | some (.symlink t) => .ok t
  | some _ => .error ⟨"EINVAL", false⟩

/-- `Path.readlink()` at path `p` whose final component's entry is `entry`:
on success `this.parent().join(output)`; in the catch branch the code first
tests `err instanceof TypeError` and only then maps `EINVAL` to `this` and
re-throws `ENOENT`; everything else is re-thrown. -/
def Path.readlink (p : String) (entry : Option LNode) : Except JsError String :=
  match readlinkSync entry with
  | .ok output => .ok (Path.join (Path.parent p) [output])
  | .error err =>
    if err.isTypeError then
      if err.code = "EINVAL" then .ok p
      else .error err
    else .error err

/-! ### Model of `mktemp` -/

/-- Model of `node_fs.mkdtempSync`: the OS appends six random characters to
the template string and creates a directory with that name;
`randomSuffix` stands for those characters. -/
def mkdtempSync (template : String) (randomSuffix : String) : String :=
  template ++ randomSuffix

/-- `Path.mktemp({dir})`: the template passed to `mkdtempSync` is
`dir.mkdir('p').string` — `mkdir` returns its receiver, so this is `dir`'s
own string (after the directory and any missing ancestors were created); the
`??`/`+` chain means a `prefix` option is ignored whenever `dir` is given.
The result is wrapped in `new Path(..)`. -/
def Path.mktemp (dir : String) (randomSuffix : String) : String :=
  normalizeStr (mkdtempSync dir randomSuffix)

/-- Strict-ancestor test on path strings: `a` is an ancestor of `b` exactly
when `b` continues `a` past a separator. -/
def isAncestorOf (a b : String) : Bool :=
  (a ++ "/").data.isPrefixOf b.data

/-! ### Model of `walk`

The live directory tree is a finite forest; `Entry`/`Forest` are mutual
inductives (rather than `Entry` with `List Entry` children) so that every
function below is structurally recursive and computes in the kernel. -/

mutual
/-- A node of the directory tree: the `Dirent` name, and for directories the
child entries. -/
inductive Entry where
  | file (name : String)
  | dir (name : String) (children : Forest)
deriving DecidableEq
/-- The ordered children of a directory. -/
inductive Forest where
  | nil
  | cons (e : Entry) (rest : Forest)
deriving DecidableEq
end

/-- The children as an ordinary list. -/
def Forest.toList : Forest → List Entry
  | .nil => []
  | .cons e rest => e :: rest.toList

/-- `entry.name`. -/
def Entry.name : Entry → String
  | .file n => n
  | .dir n _ => n

mutual
/-- Number of files in the forest. -/
def forestFiles : Forest → Nat
  | .nil => 0
  | .cons e rest => entryFiles e + forestFiles rest
def entryFiles : Entry → Nat
  | .file _ => 1
  | .dir _ cs => forestFiles cs
end

mutual
/-- Number of directories in the forest. -/
def forestDirs : Forest → Nat
  | .nil => 0
  | .cons e rest => entryDirs e + forestDirs rest
def entryDirs : Entry → Nat
  | .file _ => 0
  | .dir _ cs => 1 + forestDirs cs
end

mutual
/-- All names in the forest are well-formed path components (true of any
name `readdir` can report). -/
def forestNamesOk : Forest → Bool
  | .nil => true
  | .cons e rest => entryNamesOk e && forestNamesOk rest
def entryNamesOk : Entry → Bool
  | .file n => decide (goodSeg n.data)
  | .dir n cs => decide (goodSeg n.data) && forestNamesOk cs
end

/-- The children of the directory at `q`, as `walk` yields them:
`[dir.join(entry.name), entry]`. -/
def childEntries (q : String) (cs : Forest) : List (String × Entry) :=
  cs.toList.map (fun e => (Path.join q [e.name], e))

/-- The child directories pushed while iterating the children of `q`, in
iteration order, paired with their own children. -/
def pushedDirs (q : String) (cs : Forest) : List (String × Forest) :=
  cs.toList.filterMap (fun e =>
    match e with
    | .dir n gcs => some (Path.join q [n], gcs)
    | .file _ => none)

/-- The `walk` loop: one iteration per `stack.pop()`; every child of the
popped directory is yielded and the child directories are pushed for later
expansion.  The JS array's top is its end, so in the model (head = top) the
pushed block is prepended reversed.  `fuel` bounds the number of iterations;
`Path.walk` supplies enough for the full traversal. -/
def walkAux : Nat → List (String × Forest) → List (String × Entry)
  | 0, _ => []
  | _ + 1, [] => []
  | fuel + 1, (q, cs) :: rest =>
    childEntries q cs ++ walkAux fuel ((pushedDirs q cs).reverse ++ rest)

/-- One fuel unit per directory ever popped: the traversal pops each
directory of the tree exactly once. -/
def stackCost (st : List (String × Forest)) : Nat :=
  (st.map (fun e => 1 + forestDirs e.2)).sum

/-- `Path.walk()` on the directory at `p` whose tree of children is `cs`. -/
def Path.walk (p : String) (cs : Forest) : List (String × Entry) :=
  walkAux (1 + forestDirs cs) [(p, cs)]

mutual
/-- The canonical preorder enumeration of all entries below `q`: each node of
the forest exactly once, paired with its path. -/
def entAllForest (q : String) : Forest → List (String × Entry)
  | .nil => []
  | .cons e rest => entAllEntry q e ++ entAllForest q rest
/-- The entry itself, then (for directories) everything below it. -/
def entAllEntry (q : String) : Entry → List (String × Entry)
  | .file n => [(Path.join q [n], .file n)]
  | .dir n cs => (Path.join q [n], .dir n cs) :: entAllForest (Path.join q [n]) cs
end

/-- `List.flatMap`, written out so its unfolding behaviour is fixed. -/
def cmap {α β : Type} (f : α → List β) : List α → List β
  | [] => []
  | a :: l => f a ++ cmap f l

/-! ### Model of `host()` -/

/-- The record returned by `host()`. -/
structure HostRV where
  platform : String
  arch : String
  target : String
  build_ids : List String
deriving DecidableEq

/-- The platforms of the `SupportedPlatform` enumeration. -/
def supportedPlatforms : List String :=
  ["darwin", "linux", "win32", "freebsd", "netbsd", "aix", "sunos"]

/-- The arch mapping of `host()`: `x64 → x86-64`, `arm64 → aarch64`, anything
else throws `unsupported-arch`. -/
def hostArch : String → Except String String
  | "x64" => .ok "x86-64"
  | "arm64" => .ok "aarch64"
  | a => .error ("unsupported-arch: " ++ a)

/-- The platform mapping of `host()`: supported platforms pass through,
anything else falls back to `linux` (after a console warning). -/
def hostPlatform (p : String) : String :=
  if p ∈ supportedPlatforms then p else "linux"

/-- `host()` as a function of `process.arch` and `process.platform`. -/
def host (parch pplatform : String) : Except String HostRV :=
  match hostArch parch with
  | .error e => .error e
  | .ok arch =>
    .ok ⟨hostPlatform pplatform, arch,
      hostPlatform pplatform ++ "-" ++ arch, [hostPlatform pplatform, arch]⟩

/-! ### Generic helper lemmas -/

theorem string_eq_empty_iff (s : String) : s = "" ↔ s.data = [] := by
  cases s; simp [String.ext_iff]

theorem filter_map_data (cs : List String) :
    (cs.filter (fun s => s ≠ "")).map String.data
      = (cs.map String.data).filter (fun l => l ≠ []) := by
  induction cs with
  | nil => rfl
  | cons c cs ih =>
    by_cases h : c = ""
    · subst h; simpa using ih
    · have hd : c.data ≠ [] := fun hc => h ((string_eq_empty_iff c).mpr hc)
      simpa [h, hd] using ih

theorem joinc_head? (s : List Char) (rest : List (List Char)) (hs : s ≠ []) :
    (joinc (s :: rest)).head? = s.head? := by
  cases rest with
  | nil => rfl
  | cons r rs => cases s with
    | nil => exact absurd rfl hs
    | cons a as => rfl

theorem joinc_cons_ne_nil (s : List Char) (rest : List (List Char)) (hs : s ≠ []) :
    joinc (s :: rest) ≠ [] := by
  cases rest with
  | nil => simpa using hs
  | cons r rs => cases s with
    | nil => exact absurd rfl hs
    | cons a as => simp [joinc]

/-! ### Split/join/normalize lemmas -/

theorem splitc_cons_slash (l : List Char) : splitc ('/' :: l) = [] :: splitc l := by
  simp [splitc]

theorem splitc_ne_nil (l : List Char) : splitc l ≠ [] := by
  induction l with
  | nil => simp [splitc]
  | cons c t ih =>
    by_cases hc : c = '/'
    · simp [splitc, hc]
    · cases h : splitc t with
      | nil => exact absurd h ih
      | cons s rest => simp [splitc, hc, h]

theorem splitc_of_no_slash (s : List Char) (h : '/' ∉ s) : splitc s = [s] := by
  induction s with
  | nil => rfl
  | cons c t ih =>
    have hc : c ≠ '/' := fun e => h (e ▸ List.mem_cons_self c t)
    have ht : '/' ∉ t := fun m => h (List.mem_cons_of_mem c m)
    simp [splitc, hc, ih ht]

theorem splitc_append_slash (xs ys : List Char) (h : '/' ∉ xs) :
    splitc (xs ++ '/' :: ys) = xs :: splitc ys := by
  induction xs with
  | nil => simp [splitc]
  | cons c t ih =>
    have hc : c ≠ '/' := fun e => h (e ▸ List.mem_cons_self c t)
    have ht : '/' ∉ t := fun m => h (List.mem_cons_of_mem c m)
    simp [splitc, hc, ih ht]

theorem splitc_no_slash (l : List Char) : ∀ s ∈ splitc l, '/' ∉ s := by
  induction l with
  | nil => intro s hs; simp [splitc] at hs; simp [hs]
  | cons c t ih =>
    intro s hs
    by_cases hc : c = '/'
    · subst hc
      rw [splitc_cons_slash] at hs
      rcases List.mem_cons.mp hs with h | h
      · simp [h]
      · exact ih s h
    · cases h : splitc t with
      | nil => exact absurd h (splitc_ne_nil t)
      | cons s₀ rest =>
        simp only [splitc, if_neg hc, h] at hs
        rcases List.mem_cons.mp hs with h' | h'
        · subst h'
          intro hm
          rcases List.mem_cons.mp hm with e | e
          · exact hc e.symm
          · exact ih s₀ (h ▸ List.mem_cons_self s₀ rest) e
        · exact ih s (h ▸ List.mem_cons_of_mem s₀ h')

theorem joinc_cons_cons (c : Char) (s : List Char) (r : List (List Char)) :
    joinc ((c :: s) :: r) = c :: joinc (s :: r) := by
  cases r <;> simp [joinc]

theorem joinc_splitc (l : List Char) : joinc (splitc l) = l := by
  induction l with
  | nil => rfl
  | cons c t ih =>
    by_cases hc : c = '/'
    · subst hc
      rw [splitc_cons_slash]
      cases h : splitc t with
      | nil => exact absurd h (splitc_ne_nil t)
      | cons s r =>
        rw [h] at ih
        show '/' :: joinc (s :: r) = '/' :: t
        rw [ih]
    · cases h : splitc t with
      | nil => exact absurd h (splitc_ne_nil t)
      | cons s r =>
        rw [h] at ih
        simp only [splitc, if_neg hc, h]
        rw [joinc_cons_cons, ih]

theorem splitc_joinc (segs : List (List Char)) (h0 : segs ≠ [])
    (h : ∀ s ∈ segs, '/' ∉ s) : splitc (joinc segs) = segs := by
  induction segs with
  | nil => exact absurd rfl h0
  | cons s rest ih =>
    cases rest with
    | nil => exact splitc_of_no_slash s (h s (List.mem_cons_self s []))
    | cons r rs =>
      have : joinc (s :: r :: rs) = s ++ '/' :: joinc (r :: rs) := rfl
      rw [this, splitc_append_slash _ _ (h s (List.mem_cons_self s _)),
        ih (by simp) (fun x hx => h x (List.mem_cons_of_mem s hx))]

theorem joinc_append (a b : List (List Char)) (ha : a ≠ []) (hb : b ≠ []) :
    joinc (a ++ b) = joinc a ++ '/' :: joinc b := by
  induction a with
  | nil => exact absurd rfl ha
  | cons s rest ih =>
    cases rest with
    | nil =>
      cases b with
      | nil => exact absurd rfl hb
      | cons b₀ bs => rfl
    | cons r rs =>
      have h1 : joinc ((s :: r :: rs) ++ b) = s ++ '/' :: joinc ((r :: rs) ++ b) := rfl
      rw [h1, ih (by simp)]
      simp [joinc]

theorem joinc_eq_nil_iff (segs : List (List Char)) :
    joinc segs = [] ↔ segs = [] ∨ segs = [[]] := by
  cases segs with
  | nil => simp [joinc]
  | cons s rest =>
    cases rest with
    | nil => simp [joinc]
    | cons r rs => simp [joinc]

theorem joinc_getLast?_eq (zs : List (List Char)) (t : List Char)
    (h : zs.getLast? = some t) (ht : t ≠ []) :
    (joinc zs).getLast? = t.getLast? := by
  induction zs with
  | nil => simp at h
  | cons s rest ih =>
    cases rest with
    | nil => simp at h; subst h; rfl
    | cons r rs =>
      have hr : (r :: rs).getLast? = some t := by
        rw [List.getLast?_cons_cons] at h; exact h
      have hJ : joinc (r :: rs) ≠ [] := by
        intro e
        have := ih hr
        rw [e] at this
        exact ht (List.getLast?_eq_none_iff.mp this.symm)
      have h1 : joinc (s :: r :: rs) = s ++ '/' :: joinc (r :: rs) := rfl
      have h2 : ('/' :: joinc (r :: rs)) = ['/'] ++ joinc (r :: rs) := rfl
      rw [h1, List.getLast?_append_of_ne_nil _ (by simp), h2,
        List.getLast?_append_of_ne_nil _ hJ]
      exact ih hr

theorem root_joinc_getLast?_ne_slash (zs : List (List Char)) (t : List Char)
    (h : zs.getLast? = some t) (ht : t ≠ []) (hs : '/' ∉ t) :
    ('/' :: joinc zs).getLast? ≠ some '/' := by
  have hz : zs ≠ [] := by intro e; rw [e] at h; simp at h
  have hJ : joinc zs ≠ [] := by
    intro e
    rcases (joinc_eq_nil_iff zs).mp e with e' | e'
    · exact hz e'
    · rw [e'] at h; simp at h; exact ht h
  have h0 : ('/' :: joinc zs) = ['/'] ++ joinc zs := rfl
  have h1 : ('/' :: joinc zs).getLast? = (joinc zs).getLast? := by
    rw [h0, List.getLast?_append_of_ne_nil _ hJ]
  rw [h1, joinc_getLast?_eq zs t h ht]
  have : t.getLast ht ∈ t := List.getLast_mem ht
  rw [List.getLast?_eq_getLast t ht]
  intro e
  have : ('/' : Char) ∈ t := by
    have e' : t.getLast ht = '/' := by simpa using e
    exact e' ▸ this
  exact hs this

theorem foldl_normStep_good (gs : List (List Char)) (acc : List (List Char))
    (h : ∀ s ∈ gs, s ≠ [] ∧ s ≠ ['.'] ∧ s ≠ ['.', '.']) :
    List.foldl normStep acc gs = acc ++ gs := by
  induction gs generalizing acc with
  | nil => simp
  | cons g gs ih =>
    have hg := h g (List.mem_cons_self g gs)
    have h1 : normStep acc g = acc ++ [g] := by
      simp [normStep, hg.1, hg.2.1, hg.2.2]
    rw [List.foldl_cons, h1, ih _ (fun s hs => h s (List.mem_cons_of_mem g hs))]
    simp

theorem foldl_normStep_dotdot (r acc : List (List Char)) :
    List.foldl normStep (acc ++ r) (List.replicate r.length ['.', '.']) = acc := by
  induction r using List.reverseRecOn with
  | nil => simp
  | append_singleton l a ih =>
    have hlen : (l ++ [a]).length = l.length + 1 := by simp
    rw [hlen, List.replicate_succ, List.foldl_cons]
    have h1 : normStep (acc ++ (l ++ [a])) ['.', '.'] = acc ++ l := by
      simp only [normStep]
      rw [if_neg (by simp), if_pos trivial, ← List.append_assoc, List.dropLast_concat]
    rw [h1]
    exact ih

theorem foldl_normStep_mem (l : List (List Char)) (acc : List (List Char))
    (hl : ∀ s ∈ l, '/' ∉ s) (hacc : ∀ s ∈ acc, goodSeg s) :
    ∀ s ∈ List.foldl normStep acc l, goodSeg s := by
  induction l generalizing acc with
  | nil => simpa using hacc
  | cons g gs ih =>
    rw [List.foldl_cons]
    refine ih _ (fun s hs => hl s (List.mem_cons_of_mem g hs)) ?_
    intro s hs
    unfold normStep at hs
    split at hs
    · exact hacc s hs
    · split at hs
      · exact hacc s (List.Sublist.subset (List.dropLast_sublist _) hs)
      · rcases List.mem_append.mp hs with h' | h'
        · exact hacc s h'
        · have hsg : s = g := by simpa using h'
          subst hsg
          refine ⟨?_, hl s (List.mem_cons_self s gs), ?_, ?_⟩
          · intro e; rename_i h1 _; exact h1 (Or.inl e)
          · intro e; rename_i h1 _; exact h1 (Or.inr e)
          · intro e; rename_i h2; exact h2 e

theorem hasDupSep_append (s l : List Char) (h : '/' ∉ s) :
    hasDupSep (s ++ l) = hasDupSep l := by
  induction s with
  | nil => rfl
  | cons c t ih =>
    have hc : c ≠ '/' := fun e => h (e ▸ List.mem_cons_self c t)
    have ht : '/' ∉ t := fun m => h (List.mem_cons_of_mem c m)
    cases t with
    | nil =>
      cases l with
      | nil => rfl
      | cons d l' => simp [hasDupSep, hc]
    | cons c' t' =>
      have : hasDupSep (c :: c' :: (t' ++ l)) = hasDupSep (c' :: (t' ++ l)) := by
        simp [hasDupSep, hc]
      simpa [this] using ih ht

theorem hasDupSep_no_slash (s : List Char) (h : '/' ∉ s) : hasDupSep s = false := by
  have := hasDupSep_append s [] h
  simpa using this

theorem hasDupSep_root_joinc (gs : List (List Char)) (hg : gs ≠ [])
    (h : ∀ s ∈ gs, s ≠ [] ∧ '/' ∉ s) :
    hasDupSep ('/' :: joinc gs) = false := by
  induction gs with
  | nil => exact absurd rfl hg
  | cons g rest ih =>
    obtain ⟨hne, hns⟩ := h g (List.mem_cons_self g rest)
    obtain ⟨c, g', rfl⟩ : ∃ c g', g = c :: g' := by
      cases g with
      | nil => exact absurd rfl hne
      | cons c g' => exact ⟨c, g', rfl⟩
    have hc : c ≠ '/' := fun e => hns (e ▸ List.mem_cons_self c g')
    have hg' : '/' ∉ g' := fun m => hns (List.mem_cons_of_mem c m)
    cases rest with
    | nil =>
      have : hasDupSep ('/' :: c :: g') = hasDupSep (c :: g') := by
        simp [hasDupSep, hc]
      rw [joinc]
      rw [this]
      exact hasDupSep_no_slash _ hns
    | cons r rs =>
      have h1 : joinc ((c :: g') :: r :: rs) = (c :: g') ++ '/' :: joinc (r :: rs) := rfl
      have h2 : hasDupSep ('/' :: ((c :: g') ++ '/' :: joinc (r :: rs)))
          = hasDupSep ((c :: g') ++ '/' :: joinc (r :: rs)) := by
        simp [hasDupSep, hc]
      rw [h1, h2, hasDupSep_append _ _ hns]
      exact ih (by simp) (fun s hs => h s (List.mem_cons_of_mem _ hs))

theorem pathInvariant_mkAbs (gs : List (List Char)) (h : ∀ s ∈ gs, goodSeg s) :
    pathInvariant ⟨mkAbs gs⟩ := by
  by_cases hg : gs = []
  · subst hg; decide
  · have hdata : (String.mk (mkAbs gs)).data = '/' :: joinc gs := by
      simp [mkAbs, hg]
    refine ⟨?_, ?_, ?_, ?_⟩
    · rw [hdata]; rfl
    · rw [hdata]
      exact hasDupSep_root_joinc gs hg (fun s hs => ⟨(h s hs).1, (h s hs).2.1⟩)
    · rw [hdata, splitc_cons_slash, splitc_joinc gs hg (fun s hs => (h s hs).2.1)]
      intro hmem
      rcases List.mem_cons.mp hmem with e | e
      · exact absurd e.symm (by simp)
      · exact (h _ e).2.2.1 rfl
    · rw [hdata]
      intro hlast
      obtain ⟨t, hts⟩ : ∃ t, gs.getLast? = some t := by
        cases e : gs.getLast? with
        | none => exact absurd (List.getLast?_eq_none_iff.mp e) hg
        | some t => exact ⟨t, rfl⟩
      have hgood := h t (List.mem_of_mem_getLast? hts)
      exact absurd hlast (root_joinc_getLast?_ne_slash gs t hts hgood.1 hgood.2.1)

theorem normc_eq_mkAbs (l : List Char) (h2 : l.getLast? ≠ some '/') :
    normc l = mkAbs (normSegs (splitc l)) := by
  unfold normc mkAbs
  by_cases hs : normSegs (splitc l) = []
  · simp [hs]
  · simp [hs, h2]

theorem normc_invariant (l : List Char) (h2 : l.getLast? ≠ some '/') :
    pathInvariant ⟨normc l⟩ := by
  rw [normc_eq_mkAbs l h2]
  exact pathInvariant_mkAbs _
    (foldl_normStep_mem (splitc l) [] (splitc_no_slash l) (by simp))

theorem dropWhile_append_of_all (p : Char → Bool) (s l : List Char)
    (h : ∀ x ∈ s, p x = true) : (s ++ l).dropWhile p = l.dropWhile p := by
  induction s with
  | nil => rfl
  | cons c t ih =>
    have hc := h c (List.mem_cons_self c t)
    simp only [List.cons_append, List.dropWhile_cons, hc, if_true]
    exact ih (fun x hx => h x (List.mem_cons_of_mem c hx))

theorem dropWhile_cons_neg (p : Char → Bool) (c : Char) (t : List Char)
    (h : p c = false) : (c :: t).dropWhile p = c :: t := by
  simp [List.dropWhile_cons, h]

theorem joinc_good_ne_nil (gs : List (List Char)) (hg : gs ≠ [])
    (h : ∀ s ∈ gs, s ≠ []) : joinc gs ≠ [] := by
  intro e
  rcases (joinc_eq_nil_iff gs).mp e with e' | e'
  · exact hg e'
  · exact h [] (e' ▸ List.mem_cons_self [] []) rfl

theorem dirnamec_mkAbs (gs : List (List Char)) (h : ∀ s ∈ gs, s ≠ [] ∧ '/' ∉ s) :
    dirnamec (mkAbs gs) = mkAbs gs.dropLast := by
  rcases List.eq_nil_or_concat gs with rfl | ⟨init, glast, rfl⟩
  · decide
  rw [List.concat_eq_append] at h ⊢
  have hglast := h glast (by simp)
  obtain ⟨c₀, t₀, hrev⟩ : ∃ c g', glast.reverse = c :: g' := by
    cases e : glast.reverse with
    | nil => exact absurd (by simpa using congrArg List.reverse e) hglast.1
    | cons c g' => exact ⟨c, g', rfl⟩
  have hrevmem : ∀ x ∈ glast.reverse, x ≠ '/' := by
    intro x hx e
    exact hglast.2 (e ▸ List.mem_reverse.mp hx)
  have hc₀ : c₀ ≠ '/' := hrevmem c₀ (hrev ▸ List.mem_cons_self c₀ t₀)
  rcases List.eq_nil_or_concat init with rfl | ⟨i0, i1, hinit⟩
  · -- single segment: parent is the root
    have hm : mkAbs ([] ++ [glast]) = '/' :: glast := by simp [mkAbs, joinc]
    rw [hm]
    have hrev2 : ('/' :: glast).reverse = glast.reverse ++ ['/'] := by simp
    have e1 : (('/' :: glast).reverse.dropWhile (fun c => c = '/')) = glast.reverse ++ ['/'] := by
      rw [hrev2, hrev]
      exact dropWhile_cons_neg _ c₀ (t₀ ++ ['/']) (by simp [hc₀])
    have e2 : ((glast.reverse ++ ['/']).dropWhile (fun c => c ≠ '/')) = ['/'] := by
      rw [dropWhile_append_of_all _ _ _ (by intro x hx; simpa using hrevmem x hx)]
      rfl
    simp only [dirnamec, e1, e2]
    simp [mkAbs]
  · -- at least two segments: parent drops the last one
    have hinitne : init ≠ [] := by rw [hinit]; simp
    have hintgood : ∀ s ∈ init, s ≠ [] := by
      intro s hs
      exact (h s (List.mem_append_left _ hs)).1
    have hJ : joinc init ≠ [] := joinc_good_ne_nil init hinitne hintgood
    have hm : mkAbs (init ++ [glast]) = '/' :: (joinc init ++ '/' :: glast) := by
      have : joinc (init ++ [glast]) = joinc init ++ '/' :: joinc [glast] :=
        joinc_append init [glast] hinitne (by simp)
      simp [mkAbs, this, joinc]
    rw [hm]
    have hrev2 : ('/' :: (joinc init ++ '/' :: glast)).reverse
        = glast.reverse ++ '/' :: ((joinc init).reverse ++ ['/']) := by
      simp
    have e1 : (('/' :: (joinc init ++ '/' :: glast)).reverse.dropWhile (fun c => c = '/'))
        = glast.reverse ++ '/' :: ((joinc init).reverse ++ ['/']) := by
      rw [hrev2, hrev]
      exact dropWhile_cons_neg _ c₀ _ (by simp [hc₀])
    have e2 : ((glast.reverse ++ '/' :: ((joinc init).reverse ++ ['/'])).dropWhile
          (fun c => c ≠ '/')) = '/' :: ((joinc init).reverse ++ ['/']) := by
      rw [dropWhile_append_of_all _ _ _ (by intro x hx; simpa using hrevmem x hx)]
      rfl
    have hlen : ('/' :: ((joinc init).reverse ++ ['/'])).length = (joinc init).length + 2 := by
      simp
    have hlenpos : (joinc init).length ≠ 0 := by
      simpa using hJ
    simp only [dirnamec, e1, e2, hlen]
    have hcond : ¬((('/' :: (joinc init ++ '/' :: glast)).head? = some '/')
        ∧ (joinc init).length + 2 = 2) := by
      rintro ⟨-, h2⟩
      exact hJ (List.length_eq_zero.mp (by omega))
    rw [if_neg (by omega : ¬((joinc init).length + 2 ≤ 1)), if_neg hcond]
    have htake : ((joinc init).length + 2 - 1) = (joinc init).length + 1 := by omega
    rw [htake]
    have htk : List.take ((joinc init).length + 1) ('/' :: (joinc init ++ '/' :: glast))
        = '/' :: joinc init := by
      rw [List.take_succ_cons, List.take_left]
    rw [htk]
    have hdl : (init ++ [glast]).dropLast = init := by simp
    rw [hdl]
    simp only [mkAbs, if_neg hinitne]
    simp

/-! ### C7: construction and `Path.abs` -/

/-- C7: constructing a `Path` fails (with `InvalidPath`) exactly when the input
is empty or not absolute; otherwise the stored value is the platform-normalized
string; `Path.abs` returns absence exactly when construction would fail and the
constructed value otherwise, never raising. -/
theorem construct_fails_iff_empty_or_relative :
    ∀ s : String,
      ((Path.construct s).isOk = false ↔ (s = "" ∨ s.data.head? ≠ some '/')) ∧
      (∀ v, Path.construct s = .ok v → v = normalizeStr s) ∧
      Path.abs s = (Path.construct s).toOption ∧
      (∀ v, Path.abs s = some v ↔ Path.construct s = .ok v) := by
  intro s
  by_cases h : s = "" ∨ s.data.head? ≠ some '/' <;>
    simp [Path.construct, Path.abs, h, Except.toOption, Except.isOk, Except.toBool]

/-- Witness for C7 at concrete inputs: `"abc"` is rejected, `"/a//b/./c"`
normalizes to `"/a/b/c"`. -/
theorem construct_fails_iff_empty_or_relative_witness :
    (Path.construct "abc").isOk = false ∧ "/a/b/c" = normalizeStr "/a//b/./c" :=
  ⟨((construct_fails_iff_empty_or_relative "abc").1).mpr (by decide),
   (construct_fails_iff_empty_or_relative "/a//b/./c").2.1 "/a/b/c" rfl⟩

/-! ### C3: `Path.join` -/

/-- C3 counterexample: a *later* absolute segment does not replace the
accumulated result; `"/x".join("a", "/b")` is `"/x/a/b"`, not `"/b"`. -/
theorem join_later_absolute_counterexample :
    Path.join "/x" ["a", "/b"] = "/x/a/b" ∧ Path.join "/x" ["a", "/b"] ≠ "/b" :=
  ⟨rfl, by decide⟩

/-- C3 amended: empty segments are dropped; with no truthy segment the
receiver is returned unchanged; when the *first* truthy segment is absolute
the receiver is discarded (the result does not depend on it); otherwise —
including when a later segment is absolute — the truthy segments are
concatenated onto the receiver and re-normalized. -/
theorem join_amended :
    ∀ (p : String) (cs : List String),
      Path.join p cs = Path.join p (cs.filter (fun s => s ≠ "")) ∧
      (cs.filter (fun s => s ≠ "") = [] → Path.join p cs = p) ∧
      (∀ s₀ rest, (cs.map String.data).filter (fun l => l ≠ []) = s₀ :: rest →
        (s₀.head? = some '/' → ∀ q : String, Path.join p cs = Path.join q cs) ∧
        (s₀.head? ≠ some '/' →
          Path.join p cs
            = ⟨normc (p.data ++ '/' :: joinc ((cs.map String.data).filter (fun l => l ≠ [])))⟩)) := by
  intro p cs
  refine ⟨?_, ?_, ?_⟩
  · simp only [Path.join, joinCore, filter_map_data, List.filter_filter]
    simp
  · intro h
    have hd : (cs.map String.data).filter (fun l => l ≠ []) = [] := by
      rw [← filter_map_data, h]; rfl
    simp only [Path.join, joinCore, hd]
    rfl
  · intro s₀ rest hf
    have hs₀ : s₀ ≠ [] := by
      have := List.mem_filter.mp (hf ▸ List.mem_cons_self s₀ rest)
      simpa using this.2
    constructor
    · intro habs q
      simp only [Path.join, joinCore, hf]
      rw [joinc_head? s₀ rest hs₀, habs]
      simp
    · intro habs
      simp only [Path.join, joinCore, hf]
      rw [joinc_head? s₀ rest hs₀]
      simp [habs, joinc_cons_ne_nil s₀ rest hs₀]

/-- Witness for C3 amended at concrete inputs. -/
theorem join_amended_witness :
    Path.join "/x" ["", ""] = "/x" ∧
    Path.join "/x" ["/b", "c"] = Path.join "/y" ["/b", "c"] ∧
    Path.join "/x" ["a", "/b"] = ⟨normc ("/x".data ++ '/' :: joinc [['a'], ['/', 'b']])⟩ :=
  ⟨(join_amended "/x" ["", ""]).2.1 rfl,
   ((join_amended "/x" ["/b", "c"]).2.2 ['/', 'b'] [['c']] rfl).1 rfl "/y",
   ((join_amended "/x" ["a", "/b"]).2.2 ['a'] [['/', 'b']] rfl).2 (by decide)⟩

/-! ### C9: the representation invariant -/

/-- C9 counterexample: node's normalize preserves a trailing separator, so
constructing from `"/a/"` stores `"/a/"`, which violates the claimed
invariant (trailing separator on a non-root value). -/
theorem invariant_trailing_sep_counterexample :
    Path.construct "/a/" = .ok "/a/" ∧ ¬ pathInvariant "/a/" :=
  ⟨rfl, by decide⟩

/-- C9 amended: the invariant (leading separator, no duplicate separators, no
`.` segments, no non-root trailing separator) holds at construction whenever
the absolute input does not itself end in a separator; it holds after
`parent` on any canonical path; it holds after `join` whenever the joined
components do not end in a separator; and `eq` is exact string equality.
(Immutability is inherent: every operation returns a new value.) -/
theorem path_invariant_amended :
    (∀ s : String, s.data.head? = some '/' → s.data.getLast? ≠ some '/' →
      pathInvariant (normalizeStr s)) ∧
    (∀ segs, (∀ x ∈ segs, goodSeg x) → pathInvariant (Path.parent ⟨mkAbs segs⟩)) ∧
    (∀ segs (cs : List String), (∀ x ∈ segs, goodSeg x) →
      (joinc ((cs.map String.data).filter (fun l => l ≠ []))).getLast? ≠ some '/' →
      pathInvariant (Path.join ⟨mkAbs segs⟩ cs)) ∧
    (∀ a b : String, Path.eq a b = true ↔ a = b) := by
  refine ⟨?_, ?_, ?_, ?_⟩
  · intro s _ h2
    exact normc_invariant s.data h2
  · intro segs h
    show pathInvariant ⟨dirnamec (mkAbs segs)⟩
    rw [dirnamec_mkAbs segs (fun x hx => ⟨(h x hx).1, (h x hx).2.1⟩)]
    exact pathInvariant_mkAbs _
      (fun x hx => h x (List.Sublist.subset (List.dropLast_sublist _) hx))
  · intro segs cs h hlast
    show pathInvariant ⟨joinCore (mkAbs segs) (cs.map String.data)⟩
    unfold joinCore
    cases hf : (cs.map String.data).filter (fun l => l ≠ []) with
    | nil =>
      simp only [hf]
      exact pathInvariant_mkAbs segs h
    | cons s₀ rest =>
      have hs₀ : s₀ ≠ [] := by
        have := List.mem_filter.mp (hf ▸ List.mem_cons_self s₀ rest)
        simpa using this.2
      have hne := joinc_cons_ne_nil s₀ rest hs₀
      rw [hf] at hlast
      simp only [hf]
      by_cases habs : (joinc (s₀ :: rest)).head? = some '/'
      · rw [if_pos habs]
        exact normc_invariant _ hlast
      · rw [if_neg habs, if_pos hne]
        have e0 : mkAbs segs ++ '/' :: joinc (s₀ :: rest)
            = mkAbs segs ++ ('/' :: joinc (s₀ :: rest)) := rfl
        have e1 : (mkAbs segs ++ '/' :: joinc (s₀ :: rest)).getLast?
            = ('/' :: joinc (s₀ :: rest)).getLast? :=
          List.getLast?_append_of_ne_nil _ (by simp)
        have e2 : ('/' :: joinc (s₀ :: rest)) = ['/'] ++ joinc (s₀ :: rest) := rfl
        refine normc_invariant _ ?_
        rw [e1, e2, List.getLast?_append_of_ne_nil _ hne]
        exact hlast
  · intro a b
    simp [Path.eq]

/-- Witness for C9 amended at concrete inputs. -/
theorem path_invariant_amended_witness :
    pathInvariant (normalizeStr "/a//b/../c") ∧
    pathInvariant (Path.parent ⟨mkAbs [['a'], ['b']]⟩) ∧
    pathInvariant (Path.join ⟨mkAbs [['a']]⟩ ["b", "c"]) ∧
    Path.eq "/a" "/a" = true :=
  ⟨path_invariant_amended.1 "/a//b/../c" (by decide) (by decide),
   path_invariant_amended.2.1 [['a'], ['b']] (by decide),
   path_invariant_amended.2.2.1 [['a']] ["b", "c"] (by decide) (by decide),
   (path_invariant_amended.2.2.2 "/a" "/a").mpr rfl⟩

/-! ### Lemmas for the `relative`/`join` round trip -/

theorem compsc_mkAbs (gs : List (List Char)) (h : ∀ x ∈ gs, x ≠ [] ∧ '/' ∉ x) :
    compsc (mkAbs gs) = gs := by
  by_cases hg : gs = []
  · subst hg; decide
  · unfold compsc
    have hm : mkAbs gs = '/' :: joinc gs := by simp [mkAbs, hg]
    rw [hm, splitc_cons_slash, splitc_joinc gs hg (fun x hx => (h x hx).2)]
    have h1 : List.filter (fun s => s ≠ []) ([] :: gs)
        = List.filter (fun s => s ≠ []) gs := by simp
    rw [h1]
    exact List.filter_eq_self.mpr (fun x hx => by simp [(h x hx).1])

theorem mkAbs_prefix_mono (bSegs tSegs : List (List Char))
    (hp : bSegs <+: tSegs) : (mkAbs bSegs).isPrefixOf (mkAbs tSegs) = true := by
  rw [List.isPrefixOf_iff_prefix]
  obtain ⟨r, rfl⟩ := hp
  by_cases hb : bSegs = []
  · subst hb
    by_cases hr : r = []
    · subst hr; exact List.prefix_refl _
    · have : mkAbs ([] ++ r) = '/' :: joinc r := by simp [mkAbs, hr]
      rw [this]
      show mkAbs [] <+: '/' :: joinc r
      simp [mkAbs]
  · by_cases hr : r = []
    · subst hr; simp
    · have h1 : mkAbs (bSegs ++ r) = '/' :: joinc (bSegs ++ r) := by
        simp [mkAbs, hb]
      have h2 : joinc (bSegs ++ r) = joinc bSegs ++ '/' :: joinc r :=
        joinc_append bSegs r hb hr
      rw [h1, h2]
      have h3 : mkAbs bSegs = '/' :: joinc bSegs := by simp [mkAbs, hb]
      rw [h3]
      exact ⟨'/' :: joinc r, by simp⟩

theorem dropCommon_spec (a b : List (List Char)) :
    ∃ c, a = c ++ (dropCommon a b).1 ∧ b = c ++ (dropCommon a b).2 := by
  induction a generalizing b with
  | nil => exact ⟨[], by simp [dropCommon], by cases b <;> simp [dropCommon]⟩
  | cons x xs ih =>
    cases b with
    | nil => exact ⟨[], by simp [dropCommon], by simp [dropCommon]⟩
    | cons y ys =>
      by_cases hxy : x = y
      · subst hxy
        obtain ⟨c, h1, h2⟩ := ih ys
        refine ⟨x :: c, ?_, ?_⟩
        · simp [dropCommon, h1.symm]
        · simp [dropCommon, h2.symm]
      · exact ⟨[], by simp [dropCommon, hxy], by simp [dropCommon, hxy]⟩

theorem normc_root_joinc (zs : List (List Char)) (t : List Char)
    (hz : zs.getLast? = some t) (htne : t ≠ []) (hts : '/' ∉ t)
    (hs : ∀ s ∈ zs, '/' ∉ s) :
    normc ('/' :: joinc zs) = mkAbs (normSegs zs) := by
  have hzne : zs ≠ [] := by intro e; rw [e] at hz; simp at hz
  have hsplit : splitc ('/' :: joinc zs) = [] :: zs := by
    rw [splitc_cons_slash, splitc_joinc zs hzne hs]
  have hnorm : normSegs ([] :: zs) = normSegs zs := rfl
  have htrail : ('/' :: joinc zs).getLast? ≠ some '/' :=
    root_joinc_getLast?_ne_slash zs t hz htne hts
  unfold normc
  rw [hsplit, hnorm]
  by_cases he : normSegs zs = []
  · simp [he, mkAbs]
  · simp [he, htrail, mkAbs]

theorem getLast_good_facts (l : List (List Char)) (hne : l ≠ [])
    (h : ∀ x ∈ l, goodSeg x) :
    ∃ t, l.getLast? = some t ∧ t ≠ [] ∧ '/' ∉ t := by
  refine ⟨l.getLast hne, List.getLast?_eq_getLast l hne, ?_, ?_⟩
  · exact (h _ (List.getLast_mem hne)).1
  · exact (h _ (List.getLast_mem hne)).2.1

theorem joinCore_mkAbs_joinc (bSegs : List (List Char))
    (hb : ∀ x ∈ bSegs, goodSeg x)
    (a₀ : List Char) (arest : List (List Char)) (ha₀ : a₀ ≠ [])
    (hh : a₀.head? ≠ some '/')
    (hns : ∀ x ∈ a₀ :: arest, '/' ∉ x)
    (t : List Char) (hlast : (a₀ :: arest).getLast? = some t)
    (htne : t ≠ []) (hts : '/' ∉ t) :
    joinCore (mkAbs bSegs) [joinc (a₀ :: arest)]
      = mkAbs (normSegs (bSegs ++ (a₀ :: arest))) := by
  have hjne : joinc (a₀ :: arest) ≠ [] := joinc_cons_ne_nil a₀ arest ha₀
  have hfil : ([joinc (a₀ :: arest)].filter (fun s => s ≠ []))
      = [joinc (a₀ :: arest)] := by
    simp [hjne]
  have hjoined : joinc ([joinc (a₀ :: arest)]) = joinc (a₀ :: arest) := rfl
  have hhead : (joinc (a₀ :: arest)).head? ≠ some '/' := by
    rw [joinc_head? a₀ arest ha₀]; exact hh
  unfold joinCore
  rw [hfil, hjoined, if_neg hhead, if_pos hjne]
  by_cases hbnil : bSegs = []
  · subst hbnil
    have hm : mkAbs ([] : List (List Char)) = ['/'] := rfl
    have he : (['/'] : List Char) ++ '/' :: joinc (a₀ :: arest)
        = '/' :: joinc ([] :: a₀ :: arest) := rfl
    rw [hm, he]
    have hlast2 : ([] :: a₀ :: arest).getLast? = some t := by
      have : ([] :: a₀ :: arest) = [([] : List Char)] ++ (a₀ :: arest) := rfl
      rw [this, List.getLast?_append_of_ne_nil _ (by simp)]
      exact hlast
    rw [normc_root_joinc ([] :: a₀ :: arest) t hlast2 htne hts ?hns2]
    · rfl
    case hns2 =>
      intro x hx
      rcases List.mem_cons.mp hx with e | e
      · subst e; simp
      · exact hns x e
  · have hm : mkAbs bSegs = '/' :: joinc bSegs := by simp [mkAbs, hbnil]
    have he : ('/' :: joinc bSegs) ++ '/' :: joinc (a₀ :: arest)
        = '/' :: (joinc bSegs ++ '/' :: joinc (a₀ :: arest)) := rfl
    rw [hm, he, ← joinc_append bSegs (a₀ :: arest) hbnil (by simp)]
    have hlast2 : (bSegs ++ a₀ :: arest).getLast? = some t := by
      rw [List.getLast?_append_of_ne_nil _ (by simp)]
      exact hlast
    refine normc_root_joinc _ t hlast2 htne hts ?_
    intro x hx
    rcases List.mem_append.mp hx with e | e
    · exact (hb x e).2.1
    · exact hns x e

theorem normSegs_cancel (c bR tR : List (List Char))
    (hb : ∀ x ∈ c ++ bR, x ≠ [] ∧ x ≠ ['.'] ∧ x ≠ ['.', '.'])
    (ht : ∀ x ∈ tR, x ≠ [] ∧ x ≠ ['.'] ∧ x ≠ ['.', '.']) :
    normSegs ((c ++ bR) ++ (List.replicate bR.length ['.', '.'] ++ tR))
      = c ++ tR := by
  unfold normSegs
  rw [List.foldl_append, foldl_normStep_good (c ++ bR) [] hb, List.nil_append,
    List.foldl_append, foldl_normStep_dotdot bR c, foldl_normStep_good tR c ht]

/-! ### C4: the `relative`/`join` round trip -/

/-- C4 counterexample: the `startsWith` fast path of `relative` also fires
when the base is a string prefix that does not end at a component boundary;
`"/tmp/abc".relative({to: "/tmp/ab"})` is `""`, so the round trip returns
the base, not the target. -/
theorem relative_roundtrip_counterexample :
    Path.relative "/tmp/abc" "/tmp/ab" = "" ∧
    Path.join "/tmp/ab" [Path.relative "/tmp/abc" "/tmp/ab"] = "/tmp/ab" ∧
    ("/tmp/ab" : String) ≠ "/tmp/abc" :=
  ⟨rfl, rfl, by decide⟩

/-- C4 amended: over canonical absolute paths (given by their component
lists), equal paths yield an empty relative string, and
`base.join(target.relative(to: base))` equals `target` whenever the base's
components are a prefix of the target's components or the base's string is
not a string prefix of the target's string at all — that is, except when the
`startsWith` fast path fires across a component boundary. -/
theorem relative_join_roundtrip :
    (∀ segs, (∀ x ∈ segs, goodSeg x) →
      relativec (mkAbs segs) (mkAbs segs) = []) ∧
    (∀ tSegs bSegs, (∀ x ∈ tSegs, goodSeg x) → (∀ x ∈ bSegs, goodSeg x) →
      (bSegs <+: tSegs ∨ (mkAbs bSegs).isPrefixOf (mkAbs tSegs) = false) →
      joinCore (mkAbs bSegs) [relativec (mkAbs tSegs) (mkAbs bSegs)]
        = mkAbs tSegs) := by
  constructor
  · intro segs h
    have hw : ∀ x ∈ segs, x ≠ [] ∧ '/' ∉ x :=
      fun x hx => ⟨(h x hx).1, (h x hx).2.1⟩
    unfold relativec
    rw [compsc_mkAbs segs hw,
      if_pos (List.isPrefixOf_iff_prefix.mpr (List.prefix_refl _)),
      List.drop_length]
    rfl
  · intro tSegs bSegs ht hb hcase
    have htw : ∀ x ∈ tSegs, x ≠ [] ∧ '/' ∉ x :=
      fun x hx => ⟨(ht x hx).1, (ht x hx).2.1⟩
    have hbw : ∀ x ∈ bSegs, x ≠ [] ∧ '/' ∉ x :=
      fun x hx => ⟨(hb x hx).1, (hb x hx).2.1⟩
    rcases hcase with hp | hnp
    · -- component-prefix case: the fast path is taken and is correct
      obtain ⟨r, rfl⟩ := hp
      have hpre : (mkAbs bSegs).isPrefixOf (mkAbs (bSegs ++ r)) = true :=
        mkAbs_prefix_mono bSegs (bSegs ++ r) ⟨r, rfl⟩
      have hrel : relativec (mkAbs (bSegs ++ r)) (mkAbs bSegs) = joinc r := by
        unfold relativec
        rw [compsc_mkAbs _ htw, compsc_mkAbs _ hbw, if_pos hpre]
        simp only [List.length_cons, List.drop_succ_cons, List.drop_left]
      rw [hrel]
      by_cases hr : r = []
      · subst hr
        show joinCore (mkAbs bSegs) [[]] = mkAbs (bSegs ++ [])
        have : joinCore (mkAbs bSegs) [[]] = mkAbs bSegs := rfl
        rw [this, List.append_nil]
      · have hrg : ∀ x ∈ r, goodSeg x :=
          fun x hx => ht x (List.mem_append_right bSegs hx)
        obtain ⟨r₀, r', rfl⟩ : ∃ r₀ r', r = r₀ :: r' := by
          cases r with
          | nil => exact absurd rfl hr
          | cons r₀ r' => exact ⟨r₀, r', rfl⟩
        have hr₀ := hrg r₀ (List.mem_cons_self r₀ r')
        obtain ⟨t, hlast, htne, hts⟩ :=
          getLast_good_facts (r₀ :: r') (by simp) hrg
        rw [joinCore_mkAbs_joinc bSegs hb r₀ r' hr₀.1 ?hd
          (fun x hx => (hrg x hx).2.1) t hlast htne hts]
        · unfold normSegs
          rw [foldl_normStep_good _ []
            (fun x hx => by
              rcases List.mem_append.mp hx with e | e
              · have := hb x e; exact ⟨this.1, this.2.2.1, this.2.2.2⟩
              · have := hrg x e; exact ⟨this.1, this.2.2.1, this.2.2.2⟩)]
          rfl
        case hd =>
          intro e
          obtain ⟨c, _, rfl⟩ : ∃ c cs, r₀ = c :: cs := by
            cases r₀ with
            | nil => exact absurd rfl hr₀.1
            | cons c cs => exact ⟨c, cs, rfl⟩
          have : c ≠ '/' := fun hc => hr₀.2.1 (hc ▸ List.mem_cons_self c _)
          exact this (by simpa using e)
    · -- general case: common prefix stripped, `..` emitted, remainder appended
      have hbnil : bSegs ≠ [] := by
        intro e
        subst e
        rw [mkAbs_prefix_mono [] tSegs List.nil_prefix] at hnp
        simp at hnp
      have hrel : relativec (mkAbs tSegs) (mkAbs bSegs)
          = joinc (List.replicate (dropCommon tSegs bSegs).2.length ['.', '.']
              ++ (dropCommon tSegs bSegs).1) := by
        unfold relativec
        rw [compsc_mkAbs _ htw, compsc_mkAbs _ hbw, if_neg (by simp [hnp])]
        have hdc2 : dropCommon (['/'] :: tSegs) (['/'] :: bSegs)
            = dropCommon tSegs bSegs := by
          simp [dropCommon]
        rw [hdc2]
      rw [hrel]
      obtain ⟨c, hct, hcb⟩ := dropCommon_spec tSegs bSegs
      rcases hdceq : dropCommon tSegs bSegs with ⟨tR, bR⟩
      rw [hdceq] at hct hcb
      simp only [hdceq]
      have hnotboth : ¬(bR = [] ∧ tR = []) := by
        rintro ⟨h2, h1⟩
        rw [h1, List.append_nil] at hct
        rw [h2, List.append_nil] at hcb
        rw [hct, ← hcb,
          mkAbs_prefix_mono bSegs bSegs (List.prefix_refl bSegs)] at hnp
        simp at hnp
      have htRg : ∀ x ∈ tR, goodSeg x := by
        intro x hx
        exact ht x (hct ▸ List.mem_append_right c hx)
      have hnoslash : ∀ x ∈ List.replicate bR.length (['.', '.'] : List Char)
          ++ tR, '/' ∉ x := by
        intro x hx
        rcases List.mem_append.mp hx with e | e
        · rw [List.eq_of_mem_replicate e]; simp
        · exact (htRg x e).2.1
      have hlastf : ∃ t, (List.replicate bR.length (['.', '.'] : List Char)
          ++ tR).getLast? = some t ∧ t ≠ [] ∧ '/' ∉ t := by
        by_cases h1 : tR = []
        · have h2 : bR ≠ [] := fun e => hnotboth ⟨e, h1⟩
          obtain ⟨n, hn⟩ : ∃ n, bR.length = n + 1 := by
            cases e : bR with
            | nil => exact absurd e h2
            | cons y ys => exact ⟨ys.length, by simp [e]⟩
          refine ⟨['.', '.'], ?_, by simp, by simp⟩
          rw [h1, List.append_nil, hn, List.replicate_succ',
            List.getLast?_append_of_ne_nil _ (by simp)]
          rfl
        · obtain ⟨t, h3, h4, h5⟩ := getLast_good_facts _ h1 htRg
          refine ⟨t, ?_, h4, h5⟩
          rw [List.getLast?_append_of_ne_nil _ h1]
          exact h3
      obtain ⟨t, hlast, htne, hts⟩ := hlastf
      obtain ⟨a₀, arest, harg1, harg2, harg3⟩ : ∃ a₀ arest,
          List.replicate bR.length (['.', '.'] : List Char) ++ tR = a₀ :: arest
            ∧ a₀ ≠ [] ∧ a₀.head? ≠ some '/' := by
        by_cases h2 : bR = []
        · have h1 : tR ≠ [] := fun e => hnotboth ⟨h2, e⟩
          obtain ⟨t₀, t', he⟩ : ∃ t₀ t', tR = t₀ :: t' := by
            cases e : tR with
            | nil => exact absurd e h1
            | cons t₀ t' => exact ⟨t₀, t', rfl⟩
          have hg := htRg t₀ (he ▸ List.mem_cons_self t₀ t')
          refine ⟨t₀, t', ?_, hg.1, ?_⟩
          · rw [h2, he]; rfl
          · obtain ⟨ch, cs, rfl⟩ : ∃ ch cs, t₀ = ch :: cs := by
              cases t₀ with
              | nil => exact absurd rfl hg.1
              | cons ch cs => exact ⟨ch, cs, rfl⟩
            have : ch ≠ '/' := fun hc => hg.2.1 (hc ▸ List.mem_cons_self ch cs)
            exact fun e => this (by simpa using e)
        · obtain ⟨n, hn⟩ : ∃ n, bR.length = n + 1 := by
            cases e : bR with
            | nil => exact absurd e h2
            | cons y ys => exact ⟨ys.length, by simp [e]⟩
          refine ⟨['.', '.'], List.replicate n ['.', '.'] ++ tR, ?_, by simp, by simp⟩
          rw [hn, List.replicate_succ]
          rfl
      rw [harg1, joinCore_mkAbs_joinc bSegs hb a₀ arest harg2 harg3
        (harg1 ▸ hnoslash) t (harg1 ▸ hlast) htne hts, ← harg1]
      rw [hcb, normSegs_cancel c bR tR
        (fun x hx => by
          have := hb x (hcb ▸ hx)
          exact ⟨this.1, this.2.2.1, this.2.2.2⟩)
        (fun x hx => ⟨(htRg x hx).1, (htRg x hx).2.2.1, (htRg x hx).2.2.2⟩),
        ← hct]

/-- Witness for C4 amended: target `/tmp/a/b/c.txt`, base `/tmp/a/x/y`
(relative is `../../b/c.txt`), and equal paths `/a`. -/
theorem relative_join_roundtrip_witness :
    relativec (mkAbs [['a']]) (mkAbs [['a']]) = [] ∧
    joinCore (mkAbs [['t', 'm', 'p'], ['a'], ['x'], ['y']])
      [relativec (mkAbs [['t', 'm', 'p'], ['a'], ['b'], ['c', '.', 't', 'x', 't']])
        (mkAbs [['t', 'm', 'p'], ['a'], ['x'], ['y']])]
      = mkAbs [['t', 'm', 'p'], ['a'], ['b'], ['c', '.', 't', 'x', 't']] :=
  ⟨relative_join_roundtrip.1 [['a']] (by decide),
   relative_join_roundtrip.2
     [['t', 'm', 'p'], ['a'], ['b'], ['c', '.', 't', 'x', 't']]
     [['t', 'm', 'p'], ['a'], ['x'], ['y']]
     (by decide) (by decide) (Or.inr (by decide))⟩

/-! ### C1: `mv` and the missing `AlreadyExists` check -/

/-- C1: with an existing destination and `force` unset, `mv` does not fail
with `AlreadyExists` — the code performs the rename unconditionally, which
(POSIX `rename`) replaces the destination: afterwards the destination holds
the source's prior content and the source is gone. -/
theorem mv_without_force_overwrites :
    Path.mv [("/a", FNode.file "A"), ("/b", FNode.file "B")] "/a" "/b" false
      = .ok ("/b", [("/b", FNode.file "A")]) ∧
    lookupFS [("/b", FNode.file "A")] "/a" = none :=
  ⟨rfl, rfl⟩

/-! ### C2: `readlink` -/

/-- C2: `readlink` on an existing non-symlink entry does not return the path
unchanged — `readlinkSync` raises `EINVAL` as a plain `Error`, the
`err instanceof TypeError` test is false, and the error is re-thrown.  On a
missing entry the `ENOENT` failure does propagate, and a symlink is resolved
exactly one hop against the parent. -/
theorem readlink_regular_file_raises :
    Path.readlink "/a" (some LNode.file) = .error ⟨"EINVAL", false⟩ ∧
    Path.readlink "/a" none = .error ⟨"ENOENT", false⟩ ∧
    Path.readlink "/a/b" (some (LNode.symlink "../c")) = .ok "/c" :=
  ⟨rfl, rfl, rfl⟩

/-! ### C5: `mktemp` -/

/-- C5: `mktemp({dir})` hands `dir.string` (no trailing separator) to
`mkdtempSync`, so the OS appends the random suffix to the directory's *name*:
the created path is a sibling of `dir`, not strictly inside it. -/
theorem mktemp_not_inside_parent :
    Path.mktemp "/tmp/foo" "Ab12Cd" = "/tmp/fooAb12Cd" ∧
    isAncestorOf "/tmp/foo" (Path.mktemp "/tmp/foo" "Ab12Cd") = false ∧
    Path.mktemp "/tmp/foo" "Ab12Cd" ≠ "/tmp/foo" :=
  ⟨rfl, rfl, by decide⟩

/-! ### C8: `rm` -/

theorem lookupFS_filter_none (fs : FS) (p : String)
    (pred : String × FNode → Bool) (hp : ∀ n, pred (p, n) = false) :
    lookupFS (fs.filter pred) p = none := by
  induction fs with
  | nil => rfl
  | cons e rest ih =>
    obtain ⟨q, n⟩ := e
    by_cases hq : q = p
    · subst hq
      rw [List.filter_cons, hp n]
      exact ih
    · rw [List.filter_cons]
      cases hpred : pred (q, n)
      · exact ih
      · simp only [lookupFS, if_neg hq]
        exact ih

theorem lookupFS_eraseFS_self (fs : FS) (p : String) :
    lookupFS (eraseFS fs p) p = none :=
  lookupFS_filter_none fs p _ (fun n => by simp)

theorem lookupFS_eraseTree_self (fs : FS) (p : String) :
    lookupFS (eraseTree fs p) p = none :=
  lookupFS_filter_none fs p _ (fun n => by simp)

theorem lookupFS_eraseTree_below (fs : FS) (p q : String)
    (h : ((p ++ "/").data.isPrefixOf q.data) = true) :
    lookupFS (eraseTree fs p) q = none := by
  refine lookupFS_filter_none fs q _ (fun n => ?_)
  have h2 : p.data ++ ['/'] <+: q.data := by
    have h3 := List.isPrefixOf_iff_prefix.mp h
    simpa using h3
  simp [h2]

/-- C8 counterexample: on a directory without `recursive` the first call
fails with the `EISDIR`-style error and removes nothing, so calling `rm`
twice in succession on this existing path fails on the second call as
well. -/
theorem rm_twice_dir_counterexample :
    statExists [("/d", FNode.dir)] "/d" = true ∧
    rmTwiceSecond [("/d", FNode.dir)] "/d" false = .error ⟨"EISDIR", false⟩ :=
  ⟨rfl, rfl⟩

/-- C8 amended: `rm` on a non-existent path is a no-op and never fails; when
the first of two successive calls *succeeds*, the second never fails (and is
a no-op); an existing file is deleted (with or without `recursive`); an
existing directory is deleted — with its whole subtree — exactly when
`recursive` is set, and raises otherwise (in which case the second of two
successive calls fails too, refuting the unconditional reading). -/
theorem rm_idempotence_amended :
    ∀ (fs : FS) (p : String) (recursive : Bool),
      (lookupFS fs p = none → Path.rm fs p recursive = .ok fs) ∧
      (∀ fs1, Path.rm fs p recursive = .ok fs1 →
        Path.rm fs1 p recursive = .ok fs1) ∧
      (∀ content, lookupFS fs p = some (.file content) →
        Path.rm fs p recursive = .ok (eraseFS fs p) ∧
          lookupFS (eraseFS fs p) p = none) ∧
      (lookupFS fs p = some .dir →
        (recursive = true →
          Path.rm fs p recursive = .ok (eraseTree fs p) ∧
          lookupFS (eraseTree fs p) p = none ∧
          ∀ q, ((p ++ "/").data.isPrefixOf q.data) = true →
            lookupFS (eraseTree fs p) q = none) ∧
        (recursive = false →
          Path.rm fs p recursive = .error ⟨"EISDIR", false⟩)) := by
  intro fs p recursive
  refine ⟨?_, ?_, ?_, ?_⟩
  · intro h
    simp [Path.rm, statExists, h]
  · intro fs1 h
    cases he : lookupFS fs p with
    | none =>
      rw [Path.rm, if_neg (by simp [statExists, he])] at h
      obtain rfl : fs = fs1 := by injection h
      rw [Path.rm, if_neg (by simp [statExists, he])]
    | some n =>
      rw [Path.rm, if_pos (by simp [statExists, he]), rmSync, he] at h
      cases n with
      | file c =>
        obtain rfl : eraseFS fs p = fs1 := by injection h
        rw [Path.rm, if_neg (by simp [statExists, lookupFS_eraseFS_self])]
      | dir =>
        cases hr : recursive with
        | false => rw [hr] at h; simp at h
        | true =>
          rw [hr] at h
          obtain rfl : eraseTree fs p = fs1 := by injection h
          rw [Path.rm, if_neg (by simp [statExists, lookupFS_eraseTree_self])]
  · intro content h
    refine ⟨?_, lookupFS_eraseFS_self fs p⟩
    rw [Path.rm, if_pos (by simp [statExists, h]), rmSync, h]
  · intro h
    constructor
    · intro hr
      subst hr
      refine ⟨?_, lookupFS_eraseTree_self fs p, fun q hq => lookupFS_eraseTree_below fs p q hq⟩
      rw [Path.rm, if_pos (by simp [statExists, h]), rmSync, h]
      rfl
    · intro hr
      subst hr
      rw [Path.rm, if_pos (by simp [statExists, h]), rmSync, h]
      rfl

/-- Witness for C8 amended at concrete filesystems. -/
theorem rm_idempotence_amended_witness :
    Path.rm ([] : FS) "/x" false = .ok [] ∧
    Path.rm [("/f", FNode.file "c")] "/f" false = .ok [] ∧
    Path.rm ([] : FS) "/f" false = .ok [] ∧
    Path.rm [("/d", FNode.dir), ("/d/x", FNode.file "y")] "/d" true
      = .ok (eraseTree [("/d", FNode.dir), ("/d/x", FNode.file "y")] "/d") ∧
    lookupFS (eraseTree [("/d", FNode.dir), ("/d/x", FNode.file "y")] "/d") "/d/x" = none ∧
    Path.rm [("/d", FNode.dir)] "/d" false = .error ⟨"EISDIR", false⟩ :=
  ⟨(rm_idempotence_amended [] "/x" false).1 rfl,
   ((rm_idempotence_amended [("/f", FNode.file "c")] "/f" false).2.2.1 "c" rfl).1,
   (rm_idempotence_amended [("/f", FNode.file "c")] "/f" false).2.1 [] rfl,
   (((rm_idempotence_amended [("/d", FNode.dir), ("/d/x", FNode.file "y")] "/d" true).2.2.2
      rfl).1 rfl).1,
   (((rm_idempotence_amended [("/d", FNode.dir), ("/d/x", FNode.file "y")] "/d" true).2.2.2
      rfl).1 rfl).2.2 "/d/x" rfl,
   ((rm_idempotence_amended [("/d", FNode.dir)] "/d" false).2.2.2 rfl).2 rfl⟩

/-! ### C6: the `walk` traversal -/

theorem cmap_append {α β : Type} (f : α → List β) (a b : List α) :
    cmap f (a ++ b) = cmap f a ++ cmap f b := by
  induction a with
  | nil => rfl
  | cons x xs ih => simp [cmap, ih]

theorem cmap_perm {α β : Type} (f : α → List β) {l l' : List α}
    (h : List.Perm l l') : List.Perm (cmap f l) (cmap f l') := by
  induction h with
  | nil => exact List.Perm.refl _
  | cons a h ih => exact ih.append_left (f a)
  | swap a b l =>
    show List.Perm (f b ++ (f a ++ cmap f l)) (f a ++ (f b ++ cmap f l))
    rw [← List.append_assoc, ← List.append_assoc]
    exact (List.perm_append_comm).append_right _
  | trans h1 h2 ih1 ih2 => exact ih1.trans ih2

/-- Structural induction for `Forest` with the entry destructured (the
mutual recursor has several motives, so `induction` needs this one). -/
@[induction_eliminator]
theorem Forest.inductionOn {motive : Forest → Prop} (nil : motive .nil)
    (file : ∀ n rest, motive rest → motive (.cons (.file n) rest))
    (dir : ∀ n gcs rest, motive rest → motive (.cons (.dir n gcs) rest)) :
    ∀ cs, motive cs
  | .nil => nil
  | .cons (.file n) rest => file n rest (Forest.inductionOn nil file dir rest)
  | .cons (.dir n gcs) rest => dir n gcs rest (Forest.inductionOn nil file dir rest)

theorem childEntries_pushed_perm (q : String) (cs : Forest) :
    List.Perm
      (childEntries q cs
        ++ cmap (fun e => entAllForest e.1 e.2) (pushedDirs q cs))
      (entAllForest q cs) := by
  induction cs with
  | nil => simp [childEntries, pushedDirs, Forest.toList, cmap, entAllForest]
  | file n rest ih =>
      have h1 : childEntries q (.cons (.file n) rest)
          = (Path.join q [n], Entry.file n) :: childEntries q rest := rfl
      have h2 : pushedDirs q (.cons (.file n) rest) = pushedDirs q rest := rfl
      have h3 : entAllForest q (.cons (.file n) rest)
          = (Path.join q [n], Entry.file n) :: entAllForest q rest := rfl
      rw [h1, h2, h3, List.cons_append]
      exact ih.cons _
  | dir n gcs rest ih =>
      have h1 : childEntries q (.cons (.dir n gcs) rest)
          = (Path.join q [n], Entry.dir n gcs) :: childEntries q rest := rfl
      have h2 : pushedDirs q (.cons (.dir n gcs) rest)
          = (Path.join q [n], gcs) :: pushedDirs q rest := rfl
      have h3 : entAllForest q (.cons (.dir n gcs) rest)
          = (Path.join q [n], Entry.dir n gcs)
            :: (entAllForest (Path.join q [n]) gcs ++ entAllForest q rest) := rfl
      rw [h1, h2, h3, List.cons_append]
      refine List.Perm.cons _ ?_
      have h4 : cmap (fun e => entAllForest e.1 e.2)
            ((Path.join q [n], gcs) :: pushedDirs q rest)
          = entAllForest (Path.join q [n]) gcs
            ++ cmap (fun e => entAllForest e.1 e.2) (pushedDirs q rest) := rfl
      rw [h4]
      have hswap : List.Perm
          (childEntries q rest ++ (entAllForest (Path.join q [n]) gcs
            ++ cmap (fun e => entAllForest e.1 e.2) (pushedDirs q rest)))
          (entAllForest (Path.join q [n]) gcs ++ (childEntries q rest
            ++ cmap (fun e => entAllForest e.1 e.2) (pushedDirs q rest))) := by
        rw [← List.append_assoc, ← List.append_assoc]
        exact (List.perm_append_comm).append_right _
      exact hswap.trans (ih.append_left _)

theorem stackCost_append (a b : List (String × Forest)) :
    stackCost (a ++ b) = stackCost a + stackCost b := by
  simp [stackCost]

theorem stackCost_reverse (a : List (String × Forest)) :
    stackCost a.reverse = stackCost a := by
  simp [stackCost, List.sum_reverse]

theorem stackCost_pushedDirs (q : String) (cs : Forest) :
    stackCost (pushedDirs q cs) = forestDirs cs := by
  induction cs with
  | nil => rfl
  | file n rest ih =>
      have h2 : pushedDirs q (.cons (.file n) rest) = pushedDirs q rest := rfl
      rw [h2, ih]
      simp [forestDirs, entryDirs]
  | dir n gcs rest ih =>
      have h2 : pushedDirs q (.cons (.dir n gcs) rest)
          = (Path.join q [n], gcs) :: pushedDirs q rest := rfl
      rw [h2]
      have h3 : stackCost ((Path.join q [n], gcs) :: pushedDirs q rest)
          = (1 + forestDirs gcs) + stackCost (pushedDirs q rest) := by
        simp [stackCost]
      rw [h3, ih]
      simp [forestDirs, entryDirs]

theorem walkAux_perm : ∀ (fuel : Nat) (stack : List (String × Forest)),
    stackCost stack ≤ fuel →
    List.Perm (walkAux fuel stack)
      (cmap (fun e => entAllForest e.1 e.2) stack) := by
  intro fuel
  induction fuel with
  | zero =>
    intro stack h
    cases stack with
    | nil => exact List.Perm.refl _
    | cons e rest =>
      exfalso
      obtain ⟨q, cs⟩ := e
      simp [stackCost] at h
  | succ fuel ih =>
    intro stack h
    cases stack with
    | nil => exact List.Perm.refl _
    | cons e rest =>
      obtain ⟨q, cs⟩ := e
      have hc : stackCost ((q, cs) :: rest)
          = (1 + forestDirs cs) + stackCost rest := by
        simp [stackCost]
      have hcost : stackCost ((pushedDirs q cs).reverse ++ rest) ≤ fuel := by
        rw [stackCost_append, stackCost_reverse, stackCost_pushedDirs]
        rw [hc] at h
        omega
      have hrec := ih _ hcost
      have hsplit : cmap (fun e => entAllForest e.1 e.2)
            ((pushedDirs q cs).reverse ++ rest)
          = cmap (fun e => entAllForest e.1 e.2) (pushedDirs q cs).reverse
            ++ cmap (fun e => entAllForest e.1 e.2) rest := cmap_append _ _ _
      have hrev : List.Perm
          (cmap (fun e => entAllForest e.1 e.2) (pushedDirs q cs).reverse)
          (cmap (fun e => entAllForest e.1 e.2) (pushedDirs q cs)) :=
        cmap_perm _ (List.reverse_perm _)
      show List.Perm
        (childEntries q cs ++ walkAux fuel ((pushedDirs q cs).reverse ++ rest)) _
      have step1 : List.Perm
          (childEntries q cs ++ walkAux fuel ((pushedDirs q cs).reverse ++ rest))
          (childEntries q cs
            ++ (cmap (fun e => entAllForest e.1 e.2) (pushedDirs q cs)
              ++ cmap (fun e => entAllForest e.1 e.2) rest)) := by
        refine List.Perm.append_left _ ?_
        exact (hrec.trans (hsplit ▸ List.Perm.refl _)).trans
          (hrev.append_right _)
      refine step1.trans ?_
      rw [← List.append_assoc]
      have step2 := (childEntries_pushed_perm q cs).append_right
        (cmap (fun e => entAllForest e.1 e.2) rest)
      exact step2

theorem entAllForest_length_bound : ∀ (N : Nat) (cs : Forest) (q : String),
    forestFiles cs + forestDirs cs ≤ N →
    (entAllForest q cs).length = forestFiles cs + forestDirs cs := by
  intro N
  induction N with
  | zero =>
    intro cs q h
    cases cs with
    | nil => rfl
    | cons e rest =>
      exfalso
      cases e <;> simp [forestFiles, forestDirs, entryFiles, entryDirs] at h
  | succ N ih =>
    intro cs q h
    cases cs with
    | nil => rfl
    | cons e rest =>
      cases e with
      | file n =>
        have h1 : entAllForest q (.cons (.file n) rest)
            = (Path.join q [n], Entry.file n) :: entAllForest q rest := rfl
        have hm : forestFiles (.cons (.file n) rest)
              + forestDirs (.cons (.file n) rest)
            = 1 + (forestFiles rest + forestDirs rest) := by
          simp [forestFiles, forestDirs, entryFiles, entryDirs]
          omega
        rw [hm] at h ⊢
        rw [h1, List.length_cons, ih rest q (by omega)]
        omega
      | dir n gcs =>
        have h1 : entAllForest q (.cons (.dir n gcs) rest)
            = (Path.join q [n], Entry.dir n gcs)
              :: (entAllForest (Path.join q [n]) gcs ++ entAllForest q rest) := rfl
        have hm : forestFiles (.cons (.dir n gcs) rest)
              + forestDirs (.cons (.dir n gcs) rest)
            = 1 + (forestFiles gcs + forestDirs gcs)
              + (forestFiles rest + forestDirs rest) := by
          simp [forestFiles, forestDirs, entryFiles, entryDirs]
          omega
        rw [hm] at h ⊢
        rw [h1, List.length_cons, List.length_append,
          ih gcs (Path.join q [n]) (by omega), ih rest q (by omega)]
        omega

theorem join_mkAbs_good (segs : List (List Char)) (hs : ∀ x ∈ segs, goodSeg x)
    (n : List Char) (hn : goodSeg n) :
    Path.join ⟨mkAbs segs⟩ [⟨n⟩] = ⟨mkAbs (segs ++ [n])⟩ := by
  have hh : n.head? ≠ some '/' := by
    obtain ⟨c, cs, rfl⟩ : ∃ c cs, n = c :: cs := by
      cases n with
      | nil => exact absurd rfl hn.1
      | cons c cs => exact ⟨c, cs, rfl⟩
    have hc : c ≠ '/' := fun hc => hn.2.1 (hc ▸ List.mem_cons_self c cs)
    exact fun e => hc (by simpa using e)
  have hjc := joinCore_mkAbs_joinc segs hs n [] hn.1 hh
    (fun x hx => by
      have hx2 : x = n := by simpa using hx
      exact hx2 ▸ hn.2.1)
    n rfl hn.1 hn.2.1
  have hgood : ∀ x ∈ segs ++ [n], x ≠ [] ∧ x ≠ ['.'] ∧ x ≠ ['.', '.'] := by
    intro x hx
    rcases List.mem_append.mp hx with e | e
    · exact ⟨(hs x e).1, (hs x e).2.2.1, (hs x e).2.2.2⟩
    · have hx2 : x = n := by simpa using e
      exact hx2 ▸ ⟨hn.1, hn.2.2.1, hn.2.2.2⟩
  have hns : normSegs (segs ++ [n]) = segs ++ [n] := by
    unfold normSegs
    rw [foldl_normStep_good _ [] hgood]
    rfl
  exact congrArg String.mk (hjc.trans (congrArg mkAbs hns))

theorem mkAbs_length_lt (segs : List (List Char)) (z : List Char) (hz : z ≠ []) :
    (mkAbs segs).length < (mkAbs (segs ++ [z])).length := by
  have hzlen : 0 < z.length := List.length_pos.mpr hz
  by_cases h : segs = []
  · subst h
    have h1 : mkAbs ([] : List (List Char)) = ['/'] := rfl
    have h2 : mkAbs ([] ++ [z]) = '/' :: z := by simp [mkAbs, joinc]
    rw [h1, h2]
    simp only [List.length_cons, List.length_nil]
    omega
  · have h1 : mkAbs segs = '/' :: joinc segs := by simp [mkAbs, h]
    have h2 : mkAbs (segs ++ [z]) = '/' :: joinc (segs ++ [z]) := by
      simp [mkAbs]
    have h3 : joinc (segs ++ [z]) = joinc segs ++ '/' :: z :=
      joinc_append segs [z] h (by simp)
    rw [h1, h2, h3]
    simp only [List.length_cons, List.length_append]
    omega

theorem entAll_paths_longer : ∀ (N : Nat) (cs : Forest) (segs : List (List Char)),
    forestFiles cs + forestDirs cs ≤ N →
    (∀ x ∈ segs, goodSeg x) → forestNamesOk cs = true →
    ∀ x ∈ entAllForest ⟨mkAbs segs⟩ cs,
      (mkAbs segs).length < x.1.data.length := by
  intro N
  induction N with
  | zero =>
    intro cs segs h hs hok x hx
    cases cs with
    | nil => simp [entAllForest] at hx
    | cons e rest =>
      exfalso
      cases e <;> simp [forestFiles, forestDirs, entryFiles, entryDirs] at h
  | succ N ih =>
    intro cs segs h hs hok x hx
    cases cs with
    | nil => simp [entAllForest] at hx
    | cons e rest =>
      cases e with
      | file n =>
        have hokn : goodSeg n.data ∧ forestNamesOk rest = true := by
          have h2 : (entryNamesOk (.file n) && forestNamesOk rest) = true := hok
          simpa [entryNamesOk] using h2
        have h1 : entAllForest ⟨mkAbs segs⟩ (.cons (.file n) rest)
            = (Path.join ⟨mkAbs segs⟩ [n], Entry.file n)
              :: entAllForest ⟨mkAbs segs⟩ rest := rfl
        rw [h1] at hx
        have hm : forestFiles (.cons (.file n) rest)
              + forestDirs (.cons (.file n) rest)
            = 1 + (forestFiles rest + forestDirs rest) := by
          simp [forestFiles, forestDirs, entryFiles, entryDirs]
          omega
        rcases List.mem_cons.mp hx with e | e
        · subst e
          show (mkAbs segs).length < (Path.join ⟨mkAbs segs⟩ [n]).data.length
          rw [join_mkAbs_good segs hs n.data hokn.1]
          exact mkAbs_length_lt segs n.data hokn.1.1
        · exact ih rest segs (by rw [hm] at h; omega) hs hokn.2 x e
      | dir n gcs =>
        have hokn : goodSeg n.data ∧ forestNamesOk gcs = true
            ∧ forestNamesOk rest = true := by
          have h2 : (entryNamesOk (.dir n gcs) && forestNamesOk rest) = true := hok
          have h3 : ((decide (goodSeg n.data) && forestNamesOk gcs)
              && forestNamesOk rest) = true := h2
          simp only [Bool.and_eq_true, decide_eq_true_eq] at h3
          exact ⟨h3.1.1, h3.1.2, h3.2⟩
        have h1 : entAllForest ⟨mkAbs segs⟩ (.cons (.dir n gcs) rest)
            = (Path.join ⟨mkAbs segs⟩ [n], Entry.dir n gcs)
              :: (entAllForest (Path.join ⟨mkAbs segs⟩ [n]) gcs
                ++ entAllForest ⟨mkAbs segs⟩ rest) := rfl
        rw [h1] at hx
        have hm : forestFiles (.cons (.dir n gcs) rest)
              + forestDirs (.cons (.dir n gcs) rest)
            = 1 + (forestFiles gcs + forestDirs gcs)
              + (forestFiles rest + forestDirs rest) := by
          simp [forestFiles, forestDirs, entryFiles, entryDirs]
          omega
        have hq : Path.join ⟨mkAbs segs⟩ [n] = ⟨mkAbs (segs ++ [n.data])⟩ :=
          join_mkAbs_good segs hs n.data hokn.1
        rcases List.mem_cons.mp hx with e | e
        · subst e
          show (mkAbs segs).length < (Path.join ⟨mkAbs segs⟩ [n]).data.length
          rw [hq]
          exact mkAbs_length_lt segs n.data hokn.1.1
        · rcases List.mem_append.mp e with e2 | e2
          · rw [hq] at e2
            have hsub := ih gcs (segs ++ [n.data]) (by rw [hm] at h; omega)
              (fun y hy => by
                rcases List.mem_append.mp hy with e3 | e3
                · exact hs y e3
                · have : y = n.data := by simpa using e3
                  exact this ▸ hokn.1)
              hokn.2.1 x e2
            exact lt_trans (mkAbs_length_lt segs n.data hokn.1.1) hsub
          · exact ih rest segs (by rw [hm] at h; omega) hs hokn.2.2 x e2

/-- C6: over any finite directory tree with N files and M directories,
`walk` yields exactly N+M entries, forming a permutation of the canonical
preorder enumeration — each entry exactly once; and (for a canonical root
path and the well-formed names `readdir` reports) the traversal root itself
is never yielded.  The depth-first explicit work stack that yields every
child of a popped directory and pushes the child directories is the
definition `walkAux` itself. -/
theorem walk_yields_all_entries_once :
    (∀ (p : String) (cs : Forest),
      (Path.walk p cs).length = forestFiles cs + forestDirs cs ∧
      List.Perm (Path.walk p cs) (entAllForest p cs)) ∧
    (∀ (segs : List (List Char)) (cs : Forest),
      (∀ x ∈ segs, goodSeg x) → forestNamesOk cs = true →
      ∀ x ∈ Path.walk ⟨mkAbs segs⟩ cs, x.1 ≠ ⟨mkAbs segs⟩) := by
  have hperm : ∀ (p : String) (cs : Forest),
      List.Perm (Path.walk p cs) (entAllForest p cs) := by
    intro p cs
    have h := walkAux_perm (1 + forestDirs cs) [(p, cs)]
      (by simp [stackCost])
    have h2 : cmap (fun e => entAllForest e.1 e.2) [(p, cs)]
        = entAllForest p cs := by simp [cmap]
    exact h2 ▸ h
  constructor
  · intro p cs
    refine ⟨?_, hperm p cs⟩
    rw [(hperm p cs).length_eq]
    exact entAllForest_length_bound (forestFiles cs + forestDirs cs) cs p le_rfl
  · intro segs cs hs hok x hx
    have hx2 : x ∈ entAllForest ⟨mkAbs segs⟩ cs := ((hperm _ cs).mem_iff).mp hx
    have hlt := entAll_paths_longer (forestFiles cs + forestDirs cs) cs segs
      le_rfl hs hok x hx2
    intro e
    rw [e] at hlt
    exact absurd hlt (lt_irrefl _)

/-- Witness for C6 at the tree `{a, d/{b}}` rooted at `/r`: three entries
(two files, one directory), and a yielded entry differs from the root. -/
theorem walk_yields_all_entries_once_witness :
    (Path.walk "/r" (Forest.cons (Entry.file "a")
        (Forest.cons (Entry.dir "d" (Forest.cons (Entry.file "b") Forest.nil))
          Forest.nil))).length = 3 ∧
    ("/r/a", Entry.file "a").1 ≠ (⟨mkAbs [['r']]⟩ : String) :=
  ⟨(walk_yields_all_entries_once.1 "/r" (Forest.cons (Entry.file "a")
      (Forest.cons (Entry.dir "d" (Forest.cons (Entry.file "b") Forest.nil))
        Forest.nil))).1,
   walk_yields_all_entries_once.2 [['r']] (Forest.cons (Entry.file "a")
      (Forest.cons (Entry.dir "d" (Forest.cons (Entry.file "b") Forest.nil))
        Forest.nil)) (by decide) (by decide)
     ("/r/a", Entry.file "a") (by decide)⟩

/-! ### C10: `host()` -/

/-- C10: `host()` returns `target = "<platform>-<arch>"` and
`build_ids = [platform, arch]`; the arch mapping is exactly
`x64 → x86-64`, `arm64 → aarch64`, with any other architecture raising; any
`process.platform` outside the supported enumeration falls back to `linux`
rather than failing. -/
theorem host_target_and_fallback :
    ∀ (parch pplatform : String),
      ((parch ≠ "x64" ∧ parch ≠ "arm64") →
        (host parch pplatform).isOk = false) ∧
      (∀ rv, host parch pplatform = .ok rv →
        rv.target = rv.platform ++ "-" ++ rv.arch ∧
        rv.build_ids = [rv.platform, rv.arch] ∧
        ((parch = "x64" ∧ rv.arch = "x86-64")
          ∨ (parch = "arm64" ∧ rv.arch = "aarch64")) ∧
        rv.platform
          = (if pplatform ∈ supportedPlatforms then pplatform else "linux")) := by
  intro parch pplatform
  have herr : parch ≠ "x64" → parch ≠ "arm64" →
      hostArch parch = .error ("unsupported-arch: " ++ parch) := by
    intro h1 h2
    unfold hostArch
    split
    · simp_all
    · simp_all
    · rfl
  constructor
  · rintro ⟨h1, h2⟩
    simp [host, herr h1 h2, Except.isOk, Except.toBool]
  · intro rv hrv
    by_cases h1 : parch = "x64"
    · subst h1
      have he : host "x64" pplatform
          = .ok ⟨hostPlatform pplatform, "x86-64",
              hostPlatform pplatform ++ "-" ++ "x86-64",
              [hostPlatform pplatform, "x86-64"]⟩ := rfl
      rw [he] at hrv
      injection hrv with h
      subst h
      exact ⟨rfl, rfl, Or.inl ⟨rfl, rfl⟩, rfl⟩
    · by_cases h2 : parch = "arm64"
      · subst h2
        have he : host "arm64" pplatform
            = .ok ⟨hostPlatform pplatform, "aarch64",
                hostPlatform pplatform ++ "-" ++ "aarch64",
                [hostPlatform pplatform, "aarch64"]⟩ := rfl
        rw [he] at hrv
        injection hrv with h
        subst h
        exact ⟨rfl, rfl, Or.inr ⟨rfl, rfl⟩, rfl⟩
      · exfalso
        rw [host] at hrv
        rw [herr h1 h2] at hrv
        exact Except.noConfusion hrv

/-- Witness for C10 at `arm64`/`plan9` (fallback) and at `riscv` (error). -/
theorem host_target_and_fallback_witness :
    (host "riscv" "linux").isOk = false ∧
    ∃ rv, host "arm64" "plan9" = .ok rv ∧
      rv.target = rv.platform ++ "-" ++ rv.arch ∧
      rv.platform = "linux" :=
  ⟨(host_target_and_fallback "riscv" "linux").1 (by decide),
   ⟨⟨"linux", "aarch64", "linux-aarch64", ["linux", "aarch64"]⟩, rfl,
    ((host_target_and_fallback "arm64" "plan9").2 _ rfl).1,
    by
      have h := ((host_target_and_fallback "arm64" "plan9").2 _ rfl).2.2.2
      simp at h
      exact h⟩⟩
